import Mathlib

/-!
Verification of the `github-codeowners` writer (`src/github_codeowners/writer.py`)
and its round-trip contract with the parser described in the repository spec.

Python strings are embedded as Lean `String` (a structure holding `data : List Char`);
Python string primitives (`str.join`, `str.split`, `str.rstrip`, ...) are embedded as
small structural functions over `List Char` so their algebra can be proved directly.
The filesystem touched by `write_codeowners_file` is an explicit state: a set of
directories plus a map from paths (component lists) to file contents.
-/

/-- Whitespace test used for tokenization; embeds Python's notion of whitespace
for the characters that can actually occur here (Lean's `Char.isWhitespace`
covers space, tab, CR, LF). -/
def wsB (c : Char) : Bool := c.isWhitespace

/-- Embedding of Python `sep.join(parts)` at the character-list level for a
one-character separator: the separator is placed between consecutive parts,
with no leading or trailing copy. -/
def interSep (sep : Char) : List (List Char) → List Char
  | [] => []
  | [t] => t
  | t :: ts => t ++ sep :: interSep sep ts

/-- Embedding of Python `sep.join(parts)` for a one-character separator
string, at the `String` level. -/
def strJoinCh (sep : Char) (parts : List String) : String :=
  String.mk (interSep sep (parts.map String.data))

/-- Splitter underlying Python `str.split(sep)` for a one-character separator:
cuts at every character satisfying `p`, keeping empty pieces.  Always returns a
non-empty list of pieces. -/
def splitP (p : Char → Bool) : List Char → List (List Char)
  | [] => [[]]
  | c :: cs => if p c then [] :: splitP p cs else (splitP p cs).modifyHead (c :: ·)

/-- Embedding of Python `s.split(sep)` for a one-character separator. -/
def strSplitCh (sep : Char) (s : String) : List String :=
  (splitP (fun c => c == sep) s.data).map String.mk

/-- Embedding of Python `s.split()` (no separator): split on runs of
whitespace, discarding empty pieces, at the character-list level. -/
def pySplitWsL (l : List Char) : List (List Char) :=
  (splitP wsB l).filter (fun t => !t.isEmpty)

/-- Embedding of Python `s.split()` (no separator) at the `String` level. -/
def pySplitWs (s : String) : List String :=
  (pySplitWsL s.data).map String.mk

/-- Embedding of Python `s.rstrip()` at the character-list level. -/
def rstripL (l : List Char) : List Char :=
  (l.reverse.dropWhile wsB).reverse

/-- Embedding of Python `s.rstrip()`. -/
def pyRstrip (s : String) : String := String.mk (rstripL s.data)

/-- Embedding of Python `s.lstrip()` at the character-list level. -/
def lstripL (l : List Char) : List Char := l.dropWhile wsB

/-- Embedding of Python `len(s.encode('utf-8'))`: the UTF-8 byte length of a
string, as the sum of the per-character UTF-8 sizes. -/
def utf8Len (s : String) : Nat := (s.data.map Char.utf8Size).sum

/-- Modelled from the spec: `CodeOwner` (models.py is not under src/) — a single
ownership identifier whose string form is the raw string it was built from; the
classification tag is a pure function of the string and plays no role in the
writer, so only the raw form is carried here. -/
structure CodeOwner where
  raw : String
deriving DecidableEq

/-- Embedding of Python `str(owner)`: the raw string form of an owner. -/
def CodeOwner.toStringForm (o : CodeOwner) : String := o.raw

/-- Modelled from the spec: `EntryType` (models.py is not under src/) — the
three kinds of logical line. -/
inductive EntryType where
  | BLANK
  | COMMENT
  | RULE
deriving DecidableEq

/-- Modelled from the spec: `CodeOwnersEntry` (models.py is not under src/) —
one logical line: a type tag, an optional pattern (RULE only, possibly null),
an owner list, and an optional comment (COMMENT body or RULE inline comment). -/
structure CodeOwnersEntry where
  type : EntryType
  pattern : Option String
  owners : List CodeOwner
  comment : Option String
deriving DecidableEq

/-- Modelled from the spec: a BLANK entry carries no pattern, owners or comment. -/
def CodeOwnersEntry.blankE : CodeOwnersEntry := ⟨EntryType.BLANK, none, [], none⟩

/-- Modelled from the spec: `CodeOwnersFile` (models.py is not under src/) —
the document, an ordered sequence of entries in literal line order. -/
structure CodeOwnersFile where
  entries : List CodeOwnersEntry
deriving DecidableEq

/-- Boolean test for RULE entries, used to embed `get_rules`. -/
def isRule (e : CodeOwnersEntry) : Bool :=
  match e.type with
  | EntryType.RULE => true
  | _ => false

/-- Modelled from the spec: `CodeOwnersFile.get_rules` (models.py is not under
src/) — the filtered, order-preserving view of RULE entries. -/
def get_rules (f : CodeOwnersFile) : List CodeOwnersEntry :=
  f.entries.filter isRule

/-- Modelled from the spec: `CodeOwnersFileSizeError` (models.py is not under
src/) — the size-exceeded failure; it carries the human-readable message built
at the raise site. -/
structure CodeOwnersFileSizeError where
  message : String
deriving DecidableEq

/-- Embeds `MAX_FILE_SIZE_BYTES = 3 * 1024 * 1024` (writer.py line 9). -/
def MAX_FILE_SIZE_BYTES : Nat := 3 * 1024 * 1024

/-- Two-decimal rendering of `sizeBytes / (1024*1024)` as Python's
`f"{size_mb:.2f}"` produces it.  For every byte count below `2^33` the Python
division yields the exact dyadic rational `sizeBytes / 2^20` (it fits a double),
and `%.2f` rounds that exact value to two decimals with ties to even, which is
what this function computes over `Nat`. -/
def formatTwoDecimalMB (sizeBytes : Nat) : String :=
  let scaled := sizeBytes * 100
  let q := scaled / 1048576
  let r := scaled % 1048576
  let rounded :=
    if r > 524288 then q + 1
    else if r < 524288 then q
    else if q % 2 = 0 then q else q + 1
  let intPart := rounded / 100
  let frac := rounded % 100
  toString intPart ++ "." ++ (if frac < 10 then "0" else "") ++ toString frac

/-- The message built at the raise site of `_validate_file_size`
(writer.py lines 24-27). -/
def sizeErrorMessage (sizeBytes : Nat) : String :=
  "CODEOWNERS file size (" ++ formatTwoDecimalMB sizeBytes ++
    " MB) exceeds GitHub's 3 MB limit. The file must be under 3 MB to be processed by GitHub."

/-- Embeds `_validate_file_size` (writer.py lines 12-27): returns the raised
error, or `none` when the content is within the limit. -/
def validate_file_size (content : String) : Option CodeOwnersFileSizeError :=
  let sizeBytes := utf8Len content
  if sizeBytes > MAX_FILE_SIZE_BYTES then some ⟨sizeErrorMessage sizeBytes⟩ else none

/-- Embeds the body of `format_entry` (writer.py lines 83-120): BLANK is empty,
COMMENT is "#"-prefixed, a RULE with a falsy (null or empty) pattern degrades to
the empty string, and otherwise the pattern, owner string forms, and optional
"# "-prefixed inline comment are space-joined. -/
def format_entry (entry : CodeOwnersEntry) : String :=
  if entry.type = EntryType.BLANK then ""
  else if entry.type = EntryType.COMMENT then
    let comment_text := entry.comment.getD ""
    if comment_text ≠ "" then "# " ++ comment_text else "#"
  else if entry.type = EntryType.RULE then
    match entry.pattern with
    | none => ""
    | some p =>
      if p = "" then ""
      else
        let parts := [p] ++ entry.owners.map CodeOwner.toStringForm ++
          (match entry.comment with
           | some c => if c ≠ "" then ["# " ++ c] else []
           | none => [])
        strJoinCh ' ' parts
  else ""

/-- Embeds the content construction of `write_codeowners` (writer.py lines
43-49): every entry is formatted in document order and the lines are joined
with a single newline, with no trailing newline. -/
def renderContent (codeowners_file : CodeOwnersFile) : String :=
  strJoinCh '\n' (codeowners_file.entries.map format_entry)

/-- Embeds `write_codeowners` (writer.py lines 30-54): builds the content, runs
the size validation when `validate_size` is set, and returns the content. -/
def write_codeowners (codeowners_file : CodeOwnersFile) (validate_size : Bool) :
    Except CodeOwnersFileSizeError String :=
  let content := renderContent codeowners_file
  if validate_size then
    match validate_file_size content with
    | some e => Except.error e
    | none => Except.ok content
  else
    Except.ok content

/-- Explicit filesystem state for `write_codeowners_file`: the set of existing
directories and the file contents, both keyed by component-list paths.  The
root path `[]` always exists as a directory. -/
structure FileSystem where
  dirs : List (List String)
  files : List (List String × String)
deriving DecidableEq

/-- Embedding of `pathlib.Path.parent` on component-list paths. -/
def parentPath (p : List String) : List String := p.dropLast

/-- Insert a directory if it is not already present. -/
def addDir (dirs : List (List String)) (d : List String) : List (List String) :=
  if d ∈ dirs then dirs else d :: dirs

/-- Embedding of `Path.mkdir(parents=True, exist_ok=True)`: creates the
directory and every ancestor. -/
def mkdirParents (d : List String) (fs : FileSystem) : FileSystem :=
  { fs with dirs := ((d.inits).filter (fun a => !a.isEmpty)).foldl addDir fs.dirs }

/-- Directory existence test; the root always exists. -/
def dirExistsB (fs : FileSystem) (d : List String) : Bool :=
  d.isEmpty || fs.dirs.contains d

/-- Overwrite (or create) the binding of a path in the file map. -/
def setFile (files : List (List String × String)) (p : List String) (content : String) :
    List (List String × String) :=
  (p, content) :: files.filter (fun e => e.1 != p)

/-- Read a file's content from the state, if present. -/
def readFile (fs : FileSystem) (p : List String) : Option String :=
  (fs.files.find? (fun e => e.1 == p)).map (fun e => e.2)

/-- Embedding of `Path.write_text(content, encoding="utf-8")`: fails when the
parent directory is absent (Python raises `FileNotFoundError` before writing
anything), otherwise replaces the file's content in full. -/
def write_text (p : List String) (content : String) (fs : FileSystem) : Option FileSystem :=
  if dirExistsB fs (parentPath p) then some { fs with files := setFile fs.files p content }
  else none

/-- Errors observable from `write_codeowners_file`. -/
inductive WriteFileError where
  | sizeError (e : CodeOwnersFileSizeError)
  | ioError
deriving DecidableEq

/-- Result of `write_codeowners_file`: the filesystem state after the call and
the raised error, if any (a Python exception leaves prior mutations in place). -/
structure WriteOutcome where
  fs : FileSystem
  err : Option WriteFileError
deriving DecidableEq

/-- Second stage of `write_codeowners_file` (writer.py lines 79-80), after the
optional directory creation: compute the content (raising on oversize, which
leaves the state `fs1` as is) and then write it. -/
def writeAfterDirs (codeowners_file : CodeOwnersFile) (file_path : List String)
    (validate_size : Bool) (fs1 : FileSystem) : WriteOutcome :=
  match write_codeowners codeowners_file validate_size with
  | Except.error e => ⟨fs1, some (WriteFileError.sizeError e)⟩
  | Except.ok content =>
    match write_text file_path content fs1 with
    | none => ⟨fs1, some WriteFileError.ioError⟩
    | some fs2 => ⟨fs2, none⟩

/-- Embeds `write_codeowners_file` (writer.py lines 57-80), preserving the
source's statement order: parent directories are created first when
`create_dirs` is set, then the content is computed (raising on oversize), then
the file is written. -/
def write_codeowners_file (codeowners_file : CodeOwnersFile) (file_path : List String)
    (create_dirs validate_size : Bool) (fs : FileSystem) : WriteOutcome :=
  writeAfterDirs codeowners_file file_path validate_size
    (if create_dirs then mkdirParents (parentPath file_path) fs else fs)

/-- Embedding of Python `s.startswith('#')`. -/
def startsWithHash (s : String) : Bool :=
  s.data.head? == some '#'

/-- Drop a single leading space, if present (the "one optional following
space" of the spec's comment handling). -/
def stripOneSpace (l : List Char) : List Char :=
  if l.head? == some ' ' then l.tail else l

/-- Drop a single leading `'#'`, if present. -/
def dropHash (l : List Char) : List Char :=
  if l.head? == some '#' then l.tail else l

/-- Modelled from the spec (parser.py is not under src/): the rejoined comment
tokens have their leading `#` stripped, then one leading space stripped if
present. -/
def stripHashSpace (s : String) : String :=
  String.mk (stripOneSpace (dropHash s.data))

/-- Modelled from the spec (parser.py is not under src/): a line whose first
non-whitespace character is `#` becomes a COMMENT entry whose body is
everything after the `#` and one optional following space. -/
def parseCommentLine (t : String) : CodeOwnersEntry :=
  ⟨EntryType.COMMENT, none, [], some (String.mk (stripOneSpace (lstripL t.data).tail))⟩

/-- Modelled from the spec (parser.py is not under src/): any other non-empty
line is a RULE: whitespace tokenization, first token is the pattern, tokens up
to the first `#`-initial token are owners, and the remaining tokens — rejoined
with single spaces, leading `#` stripped, one following space stripped — are
the inline comment. -/
def parseRuleLine (t : String) : CodeOwnersEntry :=
  match pySplitWs t with
  | [] => CodeOwnersEntry.blankE
  | pat :: rest =>
    ⟨EntryType.RULE, some pat,
      (rest.takeWhile (fun tk => !startsWithHash tk)).map CodeOwner.mk,
      if (rest.dropWhile (fun tk => !startsWithHash tk)).isEmpty then none
      else some (stripHashSpace (strJoinCh ' ' (rest.dropWhile (fun tk => !startsWithHash tk))))⟩

/-- Modelled from the spec (parser.py is not under src/): each line is trimmed
of trailing whitespace only, an empty result is a BLANK entry, a `#`-initial
result is a COMMENT entry, and anything else is a RULE entry. -/
def parseLine (line : String) : CodeOwnersEntry :=
  if pyRstrip line = "" then CodeOwnersEntry.blankE
  else if startsWithHash (String.mk (lstripL (pyRstrip line).data)) then
    parseCommentLine (pyRstrip line)
  else parseRuleLine (pyRstrip line)

/-- Modelled from the spec (parser.py is not under src/): `parse_codeowners`
splits the input into lines and converts one line into one entry. -/
def parse_codeowners (text : String) : CodeOwnersFile :=
  ⟨(strSplitCh '\n' text).map parseLine⟩

/-- Projection of an entry to the data compared by the round-trip claim:
pattern, owner count, and inline comment. -/
def entryProj (e : CodeOwnersEntry) : Option String × Nat × Option String :=
  (e.pattern, e.owners.length, e.comment)

/-- The rule-level view of a document compared by the round-trip claim: the
sequence of rule patterns, per-rule owner counts, and inline comments. -/
def ruleView (f : CodeOwnersFile) : List (Option String × Nat × Option String) :=
  (get_rules f).map entryProj

/-- Number of newline characters in a string. -/
def countNl (s : String) : Nat := s.data.count '\n'

/-- A pattern of 3,145,729 bytes, pushing a one-rule document one byte over
GitHub's ceiling. -/
def bigPattern : String := String.mk (List.replicate 3145729 'a')

/-- A document whose rendered form is exactly one byte over the 3 MB ceiling. -/
def bigFile : CodeOwnersFile := ⟨[⟨EntryType.RULE, some bigPattern, [], none⟩]⟩

/-- The error raised for a 3,145,729-byte document. -/
def bigErr : CodeOwnersFileSizeError := ⟨sizeErrorMessage 3145729⟩

/-- Reference formatter following the spec's four-case description of
`format_entry` word for word (spec section 4.2); the "null/absent pattern" case
is read as Python falsiness, i.e. a null or empty pattern (the reading the
claim set itself fixes in C10). -/
def format_entry_spec (e : CodeOwnersEntry) : String :=
  match e.type with
  | EntryType.BLANK => ""
  | EntryType.COMMENT =>
    if e.comment.getD "" ≠ "" then "# " ++ e.comment.getD "" else "#"
  | EntryType.RULE =>
    match e.pattern with
    | none => ""
    | some p =>
      if p = "" then ""
      else
        strJoinCh ' '
          ([p] ++ e.owners.map CodeOwner.toStringForm ++
            (match e.comment with
             | some c => if c ≠ "" then ["# " ++ c] else []
             | none => []))

/-- An empty filesystem: no directories, no files (the root always exists). -/
def fsEmpty : FileSystem := ⟨[], []⟩

/-- A target path with one not-yet-existing parent directory. -/
def c2Path : List String := ["sub", "CODEOWNERS"]

/-- A three-entry document used as a concrete witness. -/
def c5File : CodeOwnersFile :=
  ⟨[⟨EntryType.COMMENT, none, [], some "x"⟩, CodeOwnersEntry.blankE,
    ⟨EntryType.RULE, some "*.py", [⟨"@a"⟩], none⟩]⟩

/-- A filesystem holding a pre-existing file at the target path. -/
def c6Fs : FileSystem := ⟨[], [(["CODEOWNERS"], "old content")]⟩

/-- A small one-rule document used as a concrete witness. -/
def c7File : CodeOwnersFile := ⟨[⟨EntryType.RULE, some "*.py", [⟨"@a"⟩], none⟩]⟩

theorem splitP_ne_nil (p : Char → Bool) (l : List Char) : splitP p l ≠ [] := by
  induction l with
  | nil => simp [splitP]
  | cons c cs ih =>
    simp only [splitP]
    by_cases hc : p c
    · simp [hc]
    · simp only [hc, if_false]
      cases h : splitP p cs with
      | nil => exact absurd h ih
      | cons a as => simp

theorem splitP_sep_free (p : Char → Bool) (l : List Char) :
    ∀ tk ∈ splitP p l, ∀ c ∈ tk, p c = false := by
  induction l with
  | nil =>
    intro tk htk c hc
    simp [splitP] at htk
    subst htk
    simp at hc
  | cons a as ih =>
    intro tk htk c hc
    simp only [splitP] at htk
    by_cases hp : p a
    · simp only [hp, if_true, List.mem_cons] at htk
      rcases htk with h | h
      · subst h; simp at hc
      · exact ih tk h c hc
    · simp only [hp, if_false] at htk
      cases hsp : splitP p as with
      | nil => exact absurd hsp (splitP_ne_nil p as)
      | cons b bs =>
        rw [hsp] at htk
        simp only [Bool.false_eq_true, if_false, List.modifyHead_cons, List.mem_cons] at htk
        rcases htk with h | h
        · subst h
          rcases List.mem_cons.1 hc with hca | hcb
          · subst hca
            exact Bool.not_eq_true _ ▸ (by simpa using hp)
          · exact ih b (hsp ▸ List.mem_cons_self b bs) c hcb
        · exact ih tk (hsp ▸ List.mem_cons_of_mem b h) c hc

theorem splitP_all_false (p : Char → Bool) (l : List Char)
    (h : ∀ c ∈ l, p c = false) : splitP p l = [l] := by
  induction l with
  | nil => rfl
  | cons a as ih =>
    have ha : p a = false := h a (List.mem_cons_self a as)
    simp only [splitP, ha, Bool.false_eq_true, if_false]
    rw [ih (fun c hc => h c (List.mem_cons_of_mem a hc))]
    rfl

theorem splitP_append (p : Char → Bool) (xs : List Char) (sep : Char) (ys : List Char)
    (hxs : ∀ c ∈ xs, p c = false) (hsep : p sep = true) :
    splitP p (xs ++ sep :: ys) = xs :: splitP p ys := by
  induction xs with
  | nil => simp [splitP, hsep]
  | cons a as ih =>
    have ha : p a = false := hxs a (List.mem_cons_self a as)
    simp only [List.cons_append, splitP, ha, Bool.false_eq_true, if_false, List.append_eq]
    rw [ih (fun c hc => hxs c (List.mem_cons_of_mem a hc))]
    rfl

theorem splitP_interSep (p : Char → Bool) (sep : Char) (hsep : p sep = true)
    (toks : List (List Char)) (h1 : toks ≠ [])
    (h2 : ∀ tk ∈ toks, ∀ c ∈ tk, p c = false) :
    splitP p (interSep sep toks) = toks := by
  induction toks with
  | nil => exact absurd rfl h1
  | cons t ts ih =>
    cases ts with
    | nil => exact splitP_all_false p t (h2 t (List.mem_cons_self t []))
    | cons t' ts' =>
      have hstep : interSep sep (t :: t' :: ts') = t ++ sep :: interSep sep (t' :: ts') := rfl
      rw [hstep,
        splitP_append p t sep (interSep sep (t' :: ts'))
          (h2 t (List.mem_cons_self t (t' :: ts'))) hsep,
        ih (by simp) (fun tk htk => h2 tk (List.mem_cons_of_mem t htk))]

theorem pySplitWsL_interSep (toks : List (List Char)) (h1 : toks ≠ [])
    (h2 : ∀ tk ∈ toks, tk ≠ [] ∧ ∀ c ∈ tk, wsB c = false) :
    pySplitWsL (interSep ' ' toks) = toks := by
  unfold pySplitWsL
  rw [splitP_interSep wsB ' ' (by decide) toks h1 (fun tk htk => (h2 tk htk).2)]
  rw [List.filter_eq_self.2 ?_]
  intro tk htk
  simpa [List.isEmpty_iff] using (h2 tk htk).1

theorem pySplitWsL_props (l : List Char) :
    ∀ tk ∈ pySplitWsL l, tk ≠ [] ∧ ∀ c ∈ tk, wsB c = false := by
  intro tk htk
  unfold pySplitWsL at htk
  have hmem := List.mem_of_mem_filter htk
  have hfil := List.of_mem_filter htk
  refine ⟨?_, splitP_sep_free wsB l tk hmem⟩
  simpa [List.isEmpty_iff] using hfil

theorem pySplitWsL_head (l : List Char) :
    ∀ tk rest, pySplitWsL l = tk :: rest → tk.head? = (l.dropWhile wsB).head? := by
  induction l with
  | nil => intro tk rest h; simp [pySplitWsL, splitP] at h
  | cons a as ih =>
    intro tk rest h
    by_cases ha : wsB a
    · have hred : pySplitWsL (a :: as) = pySplitWsL as := by
        simp [pySplitWsL, splitP, ha]
      rw [hred] at h
      rw [List.dropWhile_cons, if_pos ha]
      exact ih tk rest h
    · cases hsp : splitP wsB as with
      | nil => exact absurd hsp (splitP_ne_nil wsB as)
      | cons b bs =>
        have hred : pySplitWsL (a :: as) =
            (a :: b) :: bs.filter (fun t => !t.isEmpty) := by
          simp only [pySplitWsL, splitP, ha, Bool.false_eq_true, if_false, hsp,
            List.modifyHead_cons, List.filter_cons]
          simp
        rw [hred] at h
        injection h with h1 _
        subst h1
        rw [List.dropWhile_cons, if_neg ha]
        rfl

theorem rstripL_eq_self (l : List Char) (h : ∀ c, l.getLast? = some c → wsB c = false) :
    rstripL l = l := by
  unfold rstripL
  cases hr : l.reverse with
  | nil =>
    have hnil : l = [] := by
      have := congrArg List.reverse hr
      simpa using this
    subst hnil
    rfl
  | cons c cs =>
    have hc : l.getLast? = some c := by
      rw [← List.head?_reverse, hr]; rfl
    rw [List.dropWhile_cons, if_neg (by simp [h c hc])]
    rw [← hr, List.reverse_reverse]

theorem dropWhile_head_false {α : Type} (p : α → Bool) (l : List α) :
    ∀ a r, l.dropWhile p = a :: r → p a = false := by
  induction l with
  | nil => intro a r h; simp at h
  | cons x xs ih =>
    intro a r h
    rw [List.dropWhile_cons] at h
    by_cases hx : p x
    · rw [if_pos hx] at h; exact ih a r h
    · rw [if_neg hx] at h
      injection h with h1 _
      subst h1
      simpa using hx

theorem rstripL_getLast? (l : List Char) (c : Char)
    (h : (rstripL l).getLast? = some c) : wsB c = false := by
  unfold rstripL at h
  rw [List.getLast?_reverse] at h
  cases hd : (l.reverse.dropWhile wsB) with
  | nil => rw [hd] at h; simp at h
  | cons a r =>
    rw [hd] at h
    have : a = c := by simpa using h
    subst this
    exact dropWhile_head_false wsB l.reverse a r hd

theorem mem_rstripL (l : List Char) (c : Char) (h : c ∈ rstripL l) : c ∈ l := by
  unfold rstripL at h
  rw [List.mem_reverse] at h
  have := (List.dropWhile_sublist (l := l.reverse) (p := wsB)).subset h
  simpa using this

theorem mem_lstripL (l : List Char) (c : Char) (h : c ∈ lstripL l) : c ∈ l :=
  (List.dropWhile_sublist (l := l) (p := wsB)).subset h

theorem interSep_ne_nil (sep : Char) (toks : List (List Char)) (h1 : toks ≠ [])
    (h2 : ∀ tk ∈ toks, tk ≠ []) : interSep sep toks ≠ [] := by
  cases toks with
  | nil => exact absurd rfl h1
  | cons t ts =>
    cases ts with
    | nil => exact h2 t (List.mem_cons_self t [])
    | cons t' ts' => simp [interSep]

theorem interSep_getLast? (sep : Char) (toks : List (List Char)) (h1 : toks ≠ [])
    (h2 : ∀ tk ∈ toks, tk ≠ []) :
    ∃ tk ∈ toks, (interSep sep toks).getLast? = tk.getLast? := by
  induction toks with
  | nil => exact absurd rfl h1
  | cons t ts ih =>
    cases ts with
    | nil => exact ⟨t, List.mem_cons_self t [], rfl⟩
    | cons t' ts' =>
      obtain ⟨tk, htk, he⟩ :=
        ih (by simp) (fun tk h => h2 tk (List.mem_cons_of_mem t h))
      refine ⟨tk, List.mem_cons_of_mem t htk, ?_⟩
      have hI : interSep sep (t :: t' :: ts') = t ++ sep :: interSep sep (t' :: ts') := rfl
      rw [hI, List.getLast?_append]
      cases hJ : interSep sep (t' :: ts') with
      | nil =>
        exact absurd hJ
          (interSep_ne_nil sep (t' :: ts') (by simp)
            (fun tk h => h2 tk (List.mem_cons_of_mem t h)))
      | cons x xs =>
        rw [hJ] at he
        rw [List.getLast?_cons_cons, ← he]
        cases hx : (x :: xs).getLast? with
        | none => simp at hx
        | some c => simp [hx]

theorem mem_interSep (sep : Char) (toks : List (List Char)) (c : Char)
    (h : c ∈ interSep sep toks) : c = sep ∨ ∃ tk ∈ toks, c ∈ tk := by
  induction toks with
  | nil => simp [interSep] at h
  | cons t ts ih =>
    cases ts with
    | nil => exact Or.inr ⟨t, List.mem_cons_self t [], h⟩
    | cons t' ts' =>
      have hI : interSep sep (t :: t' :: ts') = t ++ sep :: interSep sep (t' :: ts') := rfl
      rw [hI, List.mem_append, List.mem_cons] at h
      rcases h with h | h | h
      · exact Or.inr ⟨t, List.mem_cons_self t _, h⟩
      · exact Or.inl h
      · rcases ih h with h' | ⟨tk, htk, hc⟩
        · exact Or.inl h'
        · exact Or.inr ⟨tk, List.mem_cons_of_mem t htk, hc⟩

theorem takeWhile_all {α : Type} (p : α → Bool) (l : List α)
    (h : ∀ x ∈ l, p x = true) : l.takeWhile p = l := by
  induction l with
  | nil => rfl
  | cons a as ih =>
    rw [List.takeWhile_cons, if_pos (h a (List.mem_cons_self a as))]
    rw [ih (fun x hx => h x (List.mem_cons_of_mem a hx))]

theorem dropWhile_all {α : Type} (p : α → Bool) (l : List α)
    (h : ∀ x ∈ l, p x = true) : l.dropWhile p = [] := by
  induction l with
  | nil => rfl
  | cons a as ih =>
    rw [List.dropWhile_cons, if_pos (h a (List.mem_cons_self a as))]
    exact ih (fun x hx => h x (List.mem_cons_of_mem a hx))

theorem takeWhile_middle {α : Type} (p : α → Bool) (xs : List α) (a : α) (ys : List α)
    (hxs : ∀ x ∈ xs, p x = true) (ha : p a = false) :
    (xs ++ a :: ys).takeWhile p = xs ∧ (xs ++ a :: ys).dropWhile p = a :: ys := by
  induction xs with
  | nil =>
    constructor
    · rw [List.nil_append, List.takeWhile_cons, if_neg (by simp [ha])]
    · rw [List.nil_append, List.dropWhile_cons, if_neg (by simp [ha])]
  | cons x xs' ih =>
    have hx : p x = true := hxs x (List.mem_cons_self x xs')
    obtain ⟨iht, ihd⟩ := ih (fun y hy => hxs y (List.mem_cons_of_mem x hy))
    constructor
    · rw [List.cons_append, List.takeWhile_cons, if_pos hx, iht]
    · rw [List.cons_append, List.dropWhile_cons, if_pos hx, ihd]

theorem strMk_data (s : String) : String.mk s.data = s := rfl

theorem strJoinCh_singleton (sep : Char) (s : String) : strJoinCh sep [s] = s := rfl

theorem utf8Len_replicate (n : Nat) (c : Char) :
    utf8Len (String.mk (List.replicate n c)) = n * c.utf8Size := by
  unfold utf8Len
  rw [show (String.mk (List.replicate n c)).data = List.replicate n c from rfl,
    List.map_replicate, List.sum_replicate, smul_eq_mul]

theorem bigPattern_ne_empty : bigPattern ≠ "" := by
  intro h
  have h1 : (List.replicate 3145729 'a').length = ([] : List Char).length :=
    congrArg List.length (congrArg String.data h)
  rw [List.length_replicate, List.length_nil] at h1
  exact absurd h1 (by decide)

theorem format_entry_rule_plain (p : String) (hp : p ≠ "") :
    format_entry ⟨EntryType.RULE, some p, [], none⟩ = p := by
  have h1 : format_entry ⟨EntryType.RULE, some p, [], none⟩ =
      if p = "" then "" else strJoinCh ' ' [p] := rfl
  rw [h1, if_neg hp, strJoinCh_singleton]

theorem renderContent_bigFile : renderContent bigFile = bigPattern := by
  have h1 : renderContent bigFile =
      strJoinCh '\n' [format_entry ⟨EntryType.RULE, some bigPattern, [], none⟩] := rfl
  rw [h1, format_entry_rule_plain bigPattern bigPattern_ne_empty, strJoinCh_singleton]

theorem utf8Len_render_bigFile : utf8Len (renderContent bigFile) = 3145729 := by
  rw [renderContent_bigFile]
  show utf8Len (String.mk (List.replicate 3145729 'a')) = 3145729
  rw [utf8Len_replicate]
  have h : Char.utf8Size 'a' = 1 := by decide
  rw [h, Nat.mul_one]

theorem write_spec (f : CodeOwnersFile) (v : Bool) :
    write_codeowners f v =
      if v = true ∧ utf8Len (renderContent f) > MAX_FILE_SIZE_BYTES then
        Except.error ⟨sizeErrorMessage (utf8Len (renderContent f))⟩
      else Except.ok (renderContent f) := by
  cases v with
  | false => simp [write_codeowners]
  | true =>
    by_cases hs : utf8Len (renderContent f) > MAX_FILE_SIZE_BYTES
    · simp [write_codeowners, validate_file_size, hs]
    · simp [write_codeowners, validate_file_size, hs]

theorem write_codeowners_ok_eq (f : CodeOwnersFile) (v : Bool) (s : String)
    (h : write_codeowners f v = Except.ok s) : s = renderContent f := by
  rw [write_spec] at h
  by_cases hc : v = true ∧ utf8Len (renderContent f) > MAX_FILE_SIZE_BYTES
  · rw [if_pos hc] at h; exact absurd h (by simp)
  · rw [if_neg hc] at h
    injection h with h1
    exact h1.symm

theorem bigWrite : write_codeowners bigFile true = Except.error bigErr := by
  rw [write_spec, utf8Len_render_bigFile, if_pos ⟨rfl, by decide⟩]
  rfl

theorem writeAfterDirs_error (f : CodeOwnersFile) (p : List String) (v : Bool)
    (fs1 : FileSystem) (e : CodeOwnersFileSizeError)
    (h : write_codeowners f v = Except.error e) :
    writeAfterDirs f p v fs1 = ⟨fs1, some (WriteFileError.sizeError e)⟩ := by
  unfold writeAfterDirs
  rw [h]

theorem bigOutcome :
    write_codeowners_file bigFile c2Path true true fsEmpty =
      ⟨mkdirParents (parentPath c2Path) fsEmpty, some (WriteFileError.sizeError bigErr)⟩ := by
  show writeAfterDirs bigFile c2Path true (mkdirParents (parentPath c2Path) fsEmpty) = _
  exact writeAfterDirs_error bigFile c2Path true _ bigErr bigWrite

theorem bigOutcome6 :
    write_codeowners_file bigFile ["CODEOWNERS"] false true c6Fs =
      ⟨c6Fs, some (WriteFileError.sizeError bigErr)⟩ := by
  show writeAfterDirs bigFile ["CODEOWNERS"] true c6Fs = _
  exact writeAfterDirs_error bigFile ["CODEOWNERS"] true c6Fs bigErr bigWrite

theorem count_interSep_nl (toks : List (List Char)) (h1 : toks ≠ [])
    (h2 : ∀ tk ∈ toks, tk.count '\n' = 0) :
    (interSep '\n' toks).count '\n' = toks.length - 1 := by
  induction toks with
  | nil => exact absurd rfl h1
  | cons t ts ih =>
    cases ts with
    | nil =>
      show t.count '\n' = 1 - 1
      rw [h2 t (List.mem_cons_self t [])]
    | cons t' ts' =>
      have hI : interSep '\n' (t :: t' :: ts') = t ++ '\n' :: interSep '\n' (t' :: ts') := rfl
      rw [hI, List.count_append, List.count_cons_self,
        h2 t (List.mem_cons_self t (t' :: ts')),
        ih (by simp) (fun tk htk => h2 tk (List.mem_cons_of_mem t htk))]
      simp [List.length_cons]

theorem readFile_after_write (ds : List (List String)) (files : List (List String × String))
    (p : List String) (c : String) :
    readFile ⟨ds, setFile files p c⟩ p = some c := by
  unfold readFile setFile
  rw [List.find?_cons_of_pos]
  · rfl
  · show ((p, c).1 == p) = true
    simp

theorem writeAfterDirs_ok (f : CodeOwnersFile) (p : List String) (v : Bool)
    (fs1 : FileSystem) (content : String)
    (hw : write_codeowners f v = Except.ok content) :
    writeAfterDirs f p v fs1 =
      (match write_text p content fs1 with
       | none => ⟨fs1, some WriteFileError.ioError⟩
       | some fs2 => ⟨fs2, none⟩) := by
  unfold writeAfterDirs
  rw [hw]

theorem writeAfterDirs_sizeErr (f : CodeOwnersFile) (p : List String) (v : Bool)
    (fs1 : FileSystem) (e : CodeOwnersFileSizeError)
    (h : (writeAfterDirs f p v fs1).err = some (WriteFileError.sizeError e)) :
    writeAfterDirs f p v fs1 = ⟨fs1, some (WriteFileError.sizeError e)⟩ := by
  cases hw : write_codeowners f v with
  | error e' =>
    rw [writeAfterDirs_error f p v fs1 e' hw] at h ⊢
    have he : e' = e := by simpa using h
    rw [he]
  | ok content =>
    rw [writeAfterDirs_ok f p v fs1 content hw] at h
    cases ht : write_text p content fs1 with
    | none => rw [ht] at h; simp at h
    | some fs2 => rw [ht] at h; simp at h

theorem writeAfterDirs_ok_read (f : CodeOwnersFile) (p : List String) (v : Bool)
    (fs1 : FileSystem) (h : (writeAfterDirs f p v fs1).err = none) :
    readFile (writeAfterDirs f p v fs1).fs p = some (renderContent f) := by
  cases hw : write_codeowners f v with
  | error e =>
    rw [writeAfterDirs_error f p v fs1 e hw] at h
    simp at h
  | ok content =>
    have hc : content = renderContent f := write_codeowners_ok_eq f v content hw
    subst hc
    rw [writeAfterDirs_ok f p v fs1 (renderContent f) hw] at h ⊢
    cases ht : write_text p (renderContent f) fs1 with
    | none => rw [ht] at h; simp at h
    | some fs2 =>
      show readFile fs2 p = some (renderContent f)
      unfold write_text at ht
      by_cases hd : dirExistsB fs1 (parentPath p)
      · rw [if_pos hd] at ht
        injection ht with ht1
        rw [← ht1]
        exact readFile_after_write fs1.dirs fs1.files p (renderContent f)
      · rw [if_neg hd] at ht; exact absurd ht (by simp)

/-- C1: `write_codeowners` raises the size error exactly when `validate_size`
is set and the UTF-8 byte length of the joined output exceeds
`MAX_FILE_SIZE_BYTES` = 3,145,728 bytes (so an output of exactly 3,145,728
bytes does not raise, one byte over raises, and with the flag unset no raise
occurs); in every non-raising case the joined text itself is returned. -/
theorem write_codeowners_size_gate (f : CodeOwnersFile) (v : Bool) :
    write_codeowners f v =
      (if v = true ∧ utf8Len (renderContent f) > MAX_FILE_SIZE_BYTES then
        Except.error ⟨sizeErrorMessage (utf8Len (renderContent f))⟩
      else Except.ok (renderContent f)) ∧
    MAX_FILE_SIZE_BYTES = 3145728 :=
  ⟨write_spec f v, rfl⟩

/-- C4: `format_entry` is total and satisfies the spec's four-case reference
definition: BLANK is empty; COMMENT is the body prefixed with "# " (bare "#"
for an empty body); a RULE without a usable pattern degrades to the empty
string instead of an error; a RULE with a pattern is the pattern, the owners'
string forms in order, and the "# "-prefixed inline comment, space-joined. -/
theorem format_entry_matches_spec (e : CodeOwnersEntry) :
    format_entry e = format_entry_spec e := by
  obtain ⟨ty, pat, ows, cm⟩ := e
  cases ty <;> rfl

/-- C9: the `validate_size` flag only gates the error, never the text: with
the flag unset `write_codeowners` always returns the rendered content, and
with the flag set it either raises or returns that same rendered content. -/
theorem validate_size_flag_only_gates (f : CodeOwnersFile) :
    write_codeowners f false = Except.ok (renderContent f) ∧
    (write_codeowners f true =
        Except.error ⟨sizeErrorMessage (utf8Len (renderContent f))⟩ ∨
      write_codeowners f true = Except.ok (renderContent f)) := by
  refine ⟨by rw [write_spec]; simp, ?_⟩
  by_cases hs : utf8Len (renderContent f) > MAX_FILE_SIZE_BYTES
  · exact Or.inl (by rw [write_spec, if_pos ⟨rfl, hs⟩])
  · exact Or.inr (by rw [write_spec, if_neg (by simp [hs])])

/-- C10: `format_entry` treats empty strings like absent values: a RULE whose
pattern is the empty string formats exactly like a null-pattern rule, and a
RULE whose inline comment is the empty string formats exactly like the same
rule with no comment at all (no "#" part). -/
theorem falsy_fields_at_interface (p : Option String) (owners : List CodeOwner)
    (c : Option String) :
    format_entry ⟨EntryType.RULE, some "", owners, c⟩ =
      format_entry ⟨EntryType.RULE, none, owners, c⟩ ∧
    format_entry ⟨EntryType.RULE, p, owners, some ""⟩ =
      format_entry ⟨EntryType.RULE, p, owners, none⟩ := by
  constructor
  · rfl
  · cases p with
    | none => rfl
    | some q => rfl

/-- C2 counterexample: with `create_dirs` set, the parent directory is created
before the size check runs, so on a size error the filesystem is not left
unmodified — starting from an empty filesystem the call fails with the size
error yet has mutated the directory set. -/
theorem mkdir_precedes_size_check :
    (write_codeowners_file bigFile c2Path true true fsEmpty).err =
      some (WriteFileError.sizeError bigErr) ∧
    (write_codeowners_file bigFile c2Path true true fsEmpty).fs ≠ fsEmpty := by
  rw [bigOutcome]
  refine ⟨rfl, ?_⟩
  show mkdirParents (parentPath c2Path) fsEmpty ≠ fsEmpty
  decide

/-- C2 (amended): size validation completes, and fails closed, strictly before
any byte is written to any file: on a size error no file content changes at
all; however, when `create_dirs` is set the parent-directory creation runs
before the size check, so on a size error the filesystem state is exactly the
initial state with the parent directories added (and unchanged otherwise). -/
theorem size_check_before_file_write (f : CodeOwnersFile) (p : List String) (cd : Bool)
    (fs : FileSystem) (e : CodeOwnersFileSizeError)
    (h : (write_codeowners_file f p cd true fs).err = some (WriteFileError.sizeError e)) :
    (write_codeowners_file f p cd true fs).fs.files = fs.files ∧
    (write_codeowners_file f p cd true fs).fs =
      (if cd then mkdirParents (parentPath p) fs else fs) := by
  unfold write_codeowners_file at h ⊢
  rw [writeAfterDirs_sizeErr f p true _ e h]
  refine ⟨?_, rfl⟩
  cases cd with
  | false => rfl
  | true => rfl

/-- C2 witness: a concrete oversize document on an empty filesystem fails with
the size error and leaves the file map untouched. -/
theorem size_check_before_file_write_witness :
    (write_codeowners_file bigFile c2Path true true fsEmpty).err =
      some (WriteFileError.sizeError bigErr) ∧
    (write_codeowners_file bigFile c2Path true true fsEmpty).fs.files = fsEmpty.files :=
  ⟨by rw [bigOutcome],
    (size_check_before_file_write bigFile c2Path true fsEmpty bigErr (by rw [bigOutcome])).1⟩

/-- C5 counterexample: the "n entries produce exactly n-1 newline characters"
consequence fails for a hand-constructed entry whose comment itself contains a
newline: a one-entry document renders with one newline, not zero. -/
theorem newline_join_shape_counterexample :
    (CodeOwnersFile.mk [⟨EntryType.COMMENT, none, [], some "a\nb"⟩]).entries.length = 1 ∧
    countNl (renderContent (CodeOwnersFile.mk [⟨EntryType.COMMENT, none, [], some "a\nb"⟩])) ≠
      (CodeOwnersFile.mk [⟨EntryType.COMMENT, none, [], some "a\nb"⟩]).entries.length - 1 ∧
    countNl (renderContent (CodeOwnersFile.mk [⟨EntryType.COMMENT, none, [], some "a\nb"⟩])) =
      1 := by
  decide

/-- C5 (amended): `write_codeowners` formats every entry in document order via
`format_entry` and joins with a single newline and no trailing newline, and
`write_codeowners` on the empty document returns the empty string; for every
document whose formatted lines are newline-free (as all entries built from
newline-free fields are), a document with at least one entry renders with
exactly n-1 newline characters. -/
theorem newline_join_shape (f : CodeOwnersFile)
    (h : ∀ e ∈ f.entries, countNl (format_entry e) = 0) :
    write_codeowners f false = Except.ok (renderContent f) ∧
    (f.entries ≠ [] → countNl (renderContent f) = f.entries.length - 1) ∧
    write_codeowners ⟨[]⟩ true = Except.ok "" := by
  refine ⟨by rw [write_spec]; simp, ?_, rfl⟩
  intro hne
  have hne2 : ((f.entries.map format_entry).map String.data) ≠ [] := by
    simpa using hne
  have hcnt : ∀ tk ∈ (f.entries.map format_entry).map String.data, tk.count '\n' = 0 := by
    intro tk htk
    simp only [List.mem_map] at htk
    obtain ⟨s, ⟨e, he, hfe⟩, hdata⟩ := htk
    rw [← hdata, ← hfe]
    exact h e he
  have hmain : countNl (renderContent f) =
      ((f.entries.map format_entry).map String.data).length - 1 := by
    have hc : countNl (renderContent f) =
        (interSep '\n' ((f.entries.map format_entry).map String.data)).count '\n' := rfl
    rw [hc, count_interSep_nl _ hne2 hcnt]
  rw [hmain, List.length_map, List.length_map]

/-- C5 witness: a concrete three-entry document with newline-free lines
renders with exactly two newlines. -/
theorem newline_join_shape_witness :
    countNl (renderContent c5File) = c5File.entries.length - 1 ∧
    write_codeowners c5File false = Except.ok (renderContent c5File) :=
  ⟨(newline_join_shape c5File (by decide)).2.1 (by decide),
    (newline_join_shape c5File (by decide)).1⟩

/-- C6: when `write_codeowners_file` fails with the size error, the file map is
untouched: no file is created at the target path and a pre-existing file at the
path keeps its old content. -/
theorem size_error_leaves_files_intact (f : CodeOwnersFile) (p : List String) (cd : Bool)
    (fs : FileSystem) (e : CodeOwnersFileSizeError)
    (h : (write_codeowners_file f p cd true fs).err = some (WriteFileError.sizeError e)) :
    readFile (write_codeowners_file f p cd true fs).fs p = readFile fs p ∧
    (write_codeowners_file f p cd true fs).fs.files = fs.files := by
  unfold write_codeowners_file at h ⊢
  rw [writeAfterDirs_sizeErr f p true _ e h]
  have hf : (if cd then mkdirParents (parentPath p) fs else fs).files = fs.files := by
    cases cd with
    | false => rfl
    | true => rfl
  refine ⟨?_, hf⟩
  show ((if cd then mkdirParents (parentPath p) fs else fs).files.find?
      (fun e => e.1 == p)).map (fun e => e.2) = readFile fs p
  rw [hf]
  rfl

/-- C6 witness: a concrete oversize document aimed at a path holding an old
file fails with the size error and the old content is still readable. -/
theorem size_error_leaves_files_intact_witness :
    (write_codeowners_file bigFile ["CODEOWNERS"] false true c6Fs).err =
      some (WriteFileError.sizeError bigErr) ∧
    readFile (write_codeowners_file bigFile ["CODEOWNERS"] false true c6Fs).fs ["CODEOWNERS"] =
      some "old content" := by
  refine ⟨by rw [bigOutcome6], ?_⟩
  have h := (size_error_leaves_files_intact bigFile ["CODEOWNERS"] false c6Fs bigErr
    (by rw [bigOutcome6])).1
  rw [h]
  decide

/-- C7: whenever `write_codeowners_file` returns normally, the file at the
target path afterwards contains exactly the UTF-8 text produced by
`write_codeowners` — a pre-existing file is overwritten in full and none of
its old content survives. -/
theorem normal_write_overwrites_target (f : CodeOwnersFile) (p : List String)
    (cd v : Bool) (fs : FileSystem)
    (h : (write_codeowners_file f p cd v fs).err = none) :
    readFile (write_codeowners_file f p cd v fs).fs p = some (renderContent f) := by
  unfold write_codeowners_file at h ⊢
  exact writeAfterDirs_ok_read f p v _ h

/-- C7 witness: writing a small document over a pre-existing file succeeds and
the file then reads back as exactly the rendered document. -/
theorem normal_write_overwrites_target_witness :
    (write_codeowners_file c7File ["CODEOWNERS"] false true c6Fs).err = none ∧
    readFile (write_codeowners_file c7File ["CODEOWNERS"] false true c6Fs).fs ["CODEOWNERS"] =
      some (renderContent c7File) :=
  ⟨by decide, normal_write_overwrites_target c7File ["CODEOWNERS"] false true c6Fs (by decide)⟩

/-- C8: whenever `write_codeowners` raises, the error message reports the
actual encoded byte length rendered in MiB with two-decimal precision and
states the 3 MB limit, in the fixed message template. -/
theorem size_error_message_contents (f : CodeOwnersFile) (v : Bool)
    (e : CodeOwnersFileSizeError) (h : write_codeowners f v = Except.error e) :
    e.message = "CODEOWNERS file size (" ++ formatTwoDecimalMB (utf8Len (renderContent f)) ++
      " MB) exceeds GitHub's 3 MB limit. The file must be under 3 MB to be processed by GitHub." := by
  rw [write_spec] at h
  by_cases hc : v = true ∧ utf8Len (renderContent f) > MAX_FILE_SIZE_BYTES
  · rw [if_pos hc] at h
    injection h with h1
    rw [← h1]
    rfl
  · rw [if_neg hc] at h
    exact absurd h (by simp)

/-- C8 witness: the one-byte-over document raises with the message reporting
3.00 MB against the 3 MB limit. -/
theorem size_error_message_contents_witness :
    write_codeowners bigFile true = Except.error bigErr ∧
    bigErr.message = "CODEOWNERS file size (3.00 MB) exceeds GitHub's 3 MB limit. The file must be under 3 MB to be processed by GitHub." := by
  refine ⟨bigWrite, ?_⟩
  have h := size_error_message_contents bigFile true bigErr bigWrite
  rw [h, utf8Len_render_bigFile]
  rfl

theorem str_eq_empty_iff (s : String) : s = "" ↔ s.data = [] := by
  constructor
  · intro h; rw [h]
  · intro h
    have h2 : String.mk s.data = String.mk [] := congrArg String.mk h
    rw [strMk_data] at h2
    exact h2.trans rfl

theorem isRule_iff (e : CodeOwnersEntry) : isRule e = true ↔ e.type = EntryType.RULE := by
  obtain ⟨ty, pat, ows, cm⟩ := e
  cases ty <;> simp [isRule]

theorem parseLine_eq_blank (L : String) (h : pyRstrip L = "") :
    parseLine L = CodeOwnersEntry.blankE := by
  unfold parseLine
  rw [if_pos h]

theorem parseLine_eq_comment (L : String) (h1 : pyRstrip L ≠ "")
    (h2 : startsWithHash (String.mk (lstripL (pyRstrip L).data)) = true) :
    parseLine L = parseCommentLine (pyRstrip L) := by
  unfold parseLine
  rw [if_neg h1, if_pos h2]

theorem parseLine_eq_rule (L : String) (h1 : pyRstrip L ≠ "")
    (h2 : startsWithHash (String.mk (lstripL (pyRstrip L).data)) = false) :
    parseLine L = parseRuleLine (pyRstrip L) := by
  unfold parseLine
  rw [if_neg h1, if_neg (by simp [h2])]

theorem parseRuleLine_eq (t : String) (pat : String) (rest : List String)
    (h : pySplitWs t = pat :: rest) :
    parseRuleLine t = ⟨EntryType.RULE, some pat,
      (rest.takeWhile (fun tk => !startsWithHash tk)).map CodeOwner.mk,
      if (rest.dropWhile (fun tk => !startsWithHash tk)).isEmpty then none
      else some (stripHashSpace (strJoinCh ' '
        (rest.dropWhile (fun tk => !startsWithHash tk))))⟩ := by
  unfold parseRuleLine
  rw [h]

theorem suffix_getLast? {x y : List Char} (h : x <:+ y) (hx : x ≠ []) :
    x.getLast? = y.getLast? := by
  have h1 := List.IsSuffix.getLast h hx
  rw [List.getLast?_eq_getLast x hx, List.getLast?_eq_getLast y (h.ne_nil hx), h1]

theorem pyRstrip_data (L : String) : (pyRstrip L).data = rstripL L.data := rfl

theorem mem_stripOneSpace (l : List Char) (c : Char) (h : c ∈ stripOneSpace l) : c ∈ l := by
  unfold stripOneSpace at h
  by_cases hh : (l.head? == some ' ') = true
  · rw [if_pos hh] at h; exact List.mem_of_mem_tail h
  · rwa [if_neg hh] at h

theorem stripOneSpace_suffix (l : List Char) : stripOneSpace l <:+ l := by
  unfold stripOneSpace
  by_cases hh : (l.head? == some ' ') = true
  · rw [if_pos hh]; exact List.tail_suffix l
  · rw [if_neg hh]

theorem strData_append (s t : String) : (s ++ t).data = s.data ++ t.data := rfl

theorem pyRstrip_eq_self (s : String)
    (h : ∀ c, s.data.getLast? = some c → wsB c = false) : pyRstrip s = s := by
  have h1 := rstripL_eq_self s.data h
  unfold pyRstrip
  rw [h1, strMk_data]

theorem lstripL_cons_of_not_ws (c : Char) (l : List Char) (hc : wsB c = false) :
    lstripL (c :: l) = c :: l := by
  unfold lstripL
  rw [List.dropWhile_cons, if_neg (by simp [hc])]

theorem body_suffix_of_line (t : String) :
    (stripOneSpace (lstripL t.data).tail) <:+ t.data :=
  (stripOneSpace_suffix (lstripL t.data).tail).trans
    ((List.tail_suffix (lstripL t.data)).trans (List.dropWhile_suffix wsB))

theorem stripOneSpace_space (bd : List Char) : stripOneSpace (' ' :: bd) = bd := by
  unfold stripOneSpace
  rw [if_pos (by simp)]
  rfl

theorem roundtrip_comment (t : String)
    (hres : ∀ c, t.data.getLast? = some c → wsB c = false)
    (hnl : ∀ c ∈ t.data, c ≠ '\n') :
    (∀ c ∈ (format_entry (parseCommentLine t)).data, c ≠ '\n') ∧
    parseLine (format_entry (parseCommentLine t)) = parseCommentLine t := by
  have he : parseCommentLine t =
      ⟨EntryType.COMMENT, none, [], some (String.mk (stripOneSpace (lstripL t.data).tail))⟩ :=
    rfl
  have h0 : format_entry (parseCommentLine t) =
      if String.mk (stripOneSpace (lstripL t.data).tail) ≠ "" then
        "# " ++ String.mk (stripOneSpace (lstripL t.data).tail)
      else "#" := rfl
  by_cases hb : String.mk (stripOneSpace (lstripL t.data).tail) = ""
  · have hfe : format_entry (parseCommentLine t) = "#" := by
      rw [h0, if_neg (by simp [hb])]
    rw [hfe, he, hb]
    constructor
    · intro c hc
      have hch : c = '#' := by simpa using hc
      rw [hch]; decide
    · decide
  · have hfe : format_entry (parseCommentLine t) =
        "# " ++ String.mk (stripOneSpace (lstripL t.data).tail) := by
      rw [h0, if_pos hb]
    have hbd : stripOneSpace (lstripL t.data).tail ≠ [] :=
      fun h1 => hb ((str_eq_empty_iff _).2 h1)
    have hdata : (format_entry (parseCommentLine t)).data =
        '#' :: ' ' :: stripOneSpace (lstripL t.data).tail := by
      rw [hfe]; rfl
    have hlast : (stripOneSpace (lstripL t.data).tail).getLast? = t.data.getLast? :=
      suffix_getLast? (body_suffix_of_line t) hbd
    refine ⟨?_, ?_⟩
    · intro c hc
      rw [hdata] at hc
      rcases List.mem_cons.1 hc with h1 | hc2
      · rw [h1]; decide
      · rcases List.mem_cons.1 hc2 with h2 | hc3
        · rw [h2]; decide
        · exact hnl c ((body_suffix_of_line t).subset hc3)
    · have hslast : ∀ c, (format_entry (parseCommentLine t)).data.getLast? = some c →
          wsB c = false := by
        intro c h1
        rw [hdata] at h1
        cases hbd2 : stripOneSpace (lstripL t.data).tail with
        | nil => exact absurd hbd2 hbd
        | cons b0 bs =>
          rw [hbd2, List.getLast?_cons_cons, List.getLast?_cons_cons] at h1
          rw [hbd2] at hlast
          exact hres c (hlast ▸ h1)
      have hrs : pyRstrip (format_entry (parseCommentLine t)) =
          format_entry (parseCommentLine t) := pyRstrip_eq_self _ hslast
      have hne : format_entry (parseCommentLine t) ≠ "" := by
        intro h1
        have h2 : (format_entry (parseCommentLine t)).data = [] := by rw [h1]
        rw [hdata] at h2
        exact List.noConfusion h2
      have hls : lstripL (format_entry (parseCommentLine t)).data =
          '#' :: ' ' :: stripOneSpace (lstripL t.data).tail := by
        rw [hdata]
        exact lstripL_cons_of_not_ws '#' _ (by decide)
      have hsh : startsWithHash (String.mk (lstripL
          (pyRstrip (format_entry (parseCommentLine t))).data)) = true := by
        rw [hrs, hls]
        simp [startsWithHash]
      have hpl := parseLine_eq_comment (format_entry (parseCommentLine t))
        (by rw [hrs]; exact hne) hsh
      rw [hpl, hrs]
      have hcc : parseCommentLine (format_entry (parseCommentLine t)) =
          ⟨EntryType.COMMENT, none, [], some (String.mk (stripOneSpace
            (lstripL (format_entry (parseCommentLine t)).data).tail))⟩ := rfl
      rw [hcc, hls]
      rw [show ('#' :: ' ' :: stripOneSpace (lstripL t.data).tail).tail =
        ' ' :: stripOneSpace (lstripL t.data).tail from rfl]
      rw [stripOneSpace_space]
      exact he.symm

theorem map_data_map_mk (l : List (List Char)) :
    (l.map String.mk).map String.data = l := by
  rw [List.map_map]
  have h : String.data ∘ String.mk = id := rfl
  rw [h, List.map_id]

theorem map_mk_map_data (l : List String) :
    (l.map String.data).map String.mk = l := by
  rw [List.map_map]
  have h : String.mk ∘ String.data = id := by
    funext s
    exact strMk_data s
  rw [h, List.map_id]

theorem map_tsf_map_mk (l : List String) :
    (l.map CodeOwner.mk).map CodeOwner.toStringForm = l := by
  rw [List.map_map]
  have h : CodeOwner.toStringForm ∘ CodeOwner.mk = id := rfl
  rw [h, List.map_id]

theorem interSep_last_not_ws (toks : List (List Char)) (h1 : toks ≠ [])
    (h2 : ∀ tk ∈ toks, tk ≠ [] ∧ ∀ c ∈ tk, wsB c = false) :
    ∀ c, (interSep ' ' toks).getLast? = some c → wsB c = false := by
  intro c hcl
  obtain ⟨tk, htk, he⟩ := interSep_getLast? ' ' toks h1 (fun tk h => (h2 tk h).1)
  rw [he] at hcl
  exact (h2 tk htk).2 c (List.mem_of_getLast?_eq_some hcl)

theorem hash_chunk (us : List (List Char)) (hus : us ≠ []) :
    '#' :: ' ' :: interSep ' ' us = interSep ' ' (['#'] :: us) := by
  cases us with
  | nil => exact absurd rfl hus
  | cons u0 ur => rfl

theorem interSep_cons_cons (sep : Char) (d0 d1 : List Char) (ds : List (List Char)) :
    interSep sep (d0 :: d1 :: ds) = d0 ++ sep :: interSep sep (d1 :: ds) := rfl

theorem interSep_append (sep : Char) (xs ys : List (List Char)) (hx : xs ≠ [])
    (hy : ys ≠ []) :
    interSep sep (xs ++ ys) = interSep sep xs ++ sep :: interSep sep ys := by
  induction xs with
  | nil => exact absurd rfl hx
  | cons x xs' ih =>
    cases xs' with
    | nil =>
      cases ys with
      | nil => exact absurd rfl hy
      | cons y ys' => rfl
    | cons x2 xs'' =>
      show x ++ sep :: interSep sep ((x2 :: xs'') ++ ys) =
        (x ++ sep :: interSep sep (x2 :: xs'')) ++ sep :: interSep sep ys
      rw [ih (by simp)]
      simp [List.append_assoc]

theorem dropHash_hash (l : List Char) : dropHash ('#' :: l) = l := by
  unfold dropHash
  rw [if_pos (by simp)]
  rfl

theorem stripOneSpace_not_space (l : List Char) (h : l.head? ≠ some ' ') :
    stripOneSpace l = l := by
  unfold stripOneSpace
  rw [if_neg (by simp [h])]

theorem stripHashSpace_data (s : String) :
    (stripHashSpace s).data = stripOneSpace (dropHash s.data) := rfl

theorem strJoinCh_data (sep : Char) (parts : List String) :
    (strJoinCh sep parts).data = interSep sep (parts.map String.data) := rfl

theorem line_facts (pat : String) (restS : List String)
    (hne : ∀ s ∈ pat :: restS, s.data ≠ [] ∧ ∀ c ∈ s.data, wsB c = false)
    (hph : pat.data.head? ≠ some '#') :
    pyRstrip (strJoinCh ' ' (pat :: restS)) = strJoinCh ' ' (pat :: restS) ∧
    strJoinCh ' ' (pat :: restS) ≠ "" ∧
    startsWithHash (String.mk (lstripL (strJoinCh ' ' (pat :: restS)).data)) = false ∧
    pySplitWs (strJoinCh ' ' (pat :: restS)) = pat :: restS ∧
    (∀ c ∈ (strJoinCh ' ' (pat :: restS)).data, c ≠ '\n') := by
  have hdprops : ∀ d ∈ pat.data :: restS.map String.data,
      d ≠ [] ∧ ∀ c ∈ d, wsB c = false := by
    intro d hd
    rcases List.mem_cons.1 hd with h0 | h1
    · rw [h0]; exact hne pat (List.mem_cons_self pat restS)
    · obtain ⟨s, hs, hsd⟩ := List.mem_map.1 h1
      rw [← hsd]
      exact hne s (List.mem_cons_of_mem pat hs)
  have hdne : (pat.data :: restS.map String.data) ≠ [] := by simp
  have hldata : (strJoinCh ' ' (pat :: restS)).data =
      interSep ' ' (pat.data :: restS.map String.data) := rfl
  obtain ⟨p0, pr, hpd⟩ : ∃ p0 pr, pat.data = p0 :: pr := by
    cases hp : pat.data with
    | nil => exact absurd hp (hne pat (List.mem_cons_self pat restS)).1
    | cons p0 pr => exact ⟨p0, pr, rfl⟩
  have hp0ws : wsB p0 = false :=
    (hne pat (List.mem_cons_self pat restS)).2 p0 (by rw [hpd]; exact List.mem_cons_self p0 pr)
  have hp0hash : p0 ≠ '#' := by
    intro h0
    apply hph
    rw [hpd, h0]
    rfl
  obtain ⟨X, hX⟩ : ∃ X, interSep ' ' (pat.data :: restS.map String.data) = p0 :: X := by
    cases hr : restS.map String.data with
    | nil => exact ⟨pr, by rw [hpd]; rfl⟩
    | cons d1 ds =>
      refine ⟨pr ++ ' ' :: interSep ' ' (d1 :: ds), ?_⟩
      rw [hpd, interSep_cons_cons]
      rfl
  have hrs : pyRstrip (strJoinCh ' ' (pat :: restS)) = strJoinCh ' ' (pat :: restS) := by
    apply pyRstrip_eq_self
    rw [hldata]
    exact interSep_last_not_ws _ hdne hdprops
  have hnestr : strJoinCh ' ' (pat :: restS) ≠ "" := by
    intro h0
    have h1 : (strJoinCh ' ' (pat :: restS)).data = [] := by rw [h0]
    rw [hldata, hX] at h1
    exact List.noConfusion h1
  have hlstrip : lstripL (strJoinCh ' ' (pat :: restS)).data =
      p0 :: X := by
    rw [hldata, hX]
    exact lstripL_cons_of_not_ws p0 X hp0ws
  have hhash : startsWithHash (String.mk (lstripL (strJoinCh ' ' (pat :: restS)).data)) =
      false := by
    rw [hlstrip]
    simp [startsWithHash, hp0hash]
  have hsplit : pySplitWs (strJoinCh ' ' (pat :: restS)) = pat :: restS := by
    unfold pySplitWs
    rw [hldata, pySplitWsL_interSep _ hdne hdprops]
    exact map_mk_map_data (pat :: restS)
  refine ⟨hrs, hnestr, hhash, hsplit, ?_⟩
  intro c hcm
  rw [hldata] at hcm
  rcases mem_interSep ' ' _ c hcm with h0 | ⟨tk, htk, hctk⟩
  · rw [h0]; decide
  · intro h1
    have h2 := (hdprops tk htk).2 c hctk
    rw [h1] at h2
    exact absurd h2 (by decide)

theorem comment_data_structure (k0 : String) (ks : List String) (k0t : List Char)
    (hk : k0.data = '#' :: k0t)
    (hprops : ∀ s ∈ k0 :: ks, s.data ≠ [] ∧ ∀ c ∈ s.data, wsB c = false) :
    (stripHashSpace (strJoinCh ' ' (k0 :: ks))).data = [] ∨
    ∃ us, us ≠ [] ∧ (∀ u ∈ us, u ≠ [] ∧ ∀ c ∈ u, wsB c = false) ∧
      (stripHashSpace (strJoinCh ' ' (k0 :: ks))).data = interSep ' ' us := by
  have hk0tprops : ∀ c ∈ k0t, wsB c = false := by
    intro c hc
    exact (hprops k0 (List.mem_cons_self k0 ks)).2 c
      (by rw [hk]; exact List.mem_cons_of_mem _ hc)
  cases ks with
  | nil =>
    have h1 : (stripHashSpace (strJoinCh ' ' [k0])).data = stripOneSpace k0t := by
      rw [stripHashSpace_data, strJoinCh_data]
      rw [show ([k0]).map String.data = [k0.data] from rfl, hk]
      rw [show interSep ' ' [('#' :: k0t)] = '#' :: k0t from rfl]
      rw [dropHash_hash]
    cases k0t with
    | nil => left; rw [h1]; rfl
    | cons c0 k0t' =>
      right
      have hc0 : wsB c0 = false := hk0tprops c0 (List.mem_cons_self _ _)
      have hc0sp : c0 ≠ ' ' := by
        intro h0; rw [h0] at hc0; exact absurd hc0 (by decide)
      refine ⟨[c0 :: k0t'], by simp, ?_, ?_⟩
      · intro u hu
        have hu0 : u = c0 :: k0t' := by simpa using hu
        rw [hu0]
        exact ⟨by simp, fun c hcm => hk0tprops c hcm⟩
      · rw [h1, stripOneSpace_not_space _ (by simp [hc0sp])]
        rfl
  | cons k1 ks' =>
    have h1 : (stripHashSpace (strJoinCh ' ' (k0 :: k1 :: ks'))).data =
        stripOneSpace (k0t ++ ' ' :: interSep ' ' (k1.data :: ks'.map String.data)) := by
      rw [stripHashSpace_data, strJoinCh_data]
      rw [show (k0 :: k1 :: ks').map String.data =
        k0.data :: k1.data :: ks'.map String.data from rfl, hk]
      rw [interSep_cons_cons]
      rw [show ('#' :: k0t) ++ ' ' :: interSep ' ' (k1.data :: ks'.map String.data) =
        '#' :: (k0t ++ ' ' :: interSep ' ' (k1.data :: ks'.map String.data)) from rfl]
      rw [dropHash_hash]
    have hkdsprops : ∀ u ∈ k1.data :: ks'.map String.data,
        u ≠ [] ∧ ∀ c ∈ u, wsB c = false := by
      intro u hu
      rcases List.mem_cons.1 hu with h0 | h2
      · rw [h0]
        exact hprops k1 (List.mem_cons_of_mem _ (List.mem_cons_self _ _))
      · obtain ⟨s, hs, hsd2⟩ := List.mem_map.1 h2
        rw [← hsd2]
        exact hprops s (List.mem_cons_of_mem _ (List.mem_cons_of_mem _ hs))
    cases k0t with
    | nil =>
      right
      refine ⟨k1.data :: ks'.map String.data, by simp, hkdsprops, ?_⟩
      rw [h1]
      rw [show ([] : List Char) ++ ' ' :: interSep ' ' (k1.data :: ks'.map String.data) =
        ' ' :: interSep ' ' (k1.data :: ks'.map String.data) from rfl]
      rw [stripOneSpace_space]
    | cons c0 k0t' =>
      right
      have hc0 : wsB c0 = false := hk0tprops c0 (List.mem_cons_self _ _)
      have hc0sp : c0 ≠ ' ' := by
        intro h0; rw [h0] at hc0; exact absurd hc0 (by decide)
      refine ⟨(c0 :: k0t') :: k1.data :: ks'.map String.data, by simp, ?_, ?_⟩
      · intro u hu
        rcases List.mem_cons.1 hu with h0 | h2
        · rw [h0]
          exact ⟨by simp, fun c hcm => hk0tprops c hcm⟩
        · exact hkdsprops u h2
      · rw [h1, stripOneSpace_not_space _ (by simp [hc0sp]), interSep_cons_cons]

theorem str_ext {s t : String} (h : s.data = t.data) : s = t := by
  rw [← strMk_data s, h, strMk_data]

theorem roundtrip_rule (t : String) (pat : String) (rest : List String)
    (hsh : startsWithHash (String.mk (lstripL t.data)) = false)
    (hts : pySplitWs t = pat :: rest)
    (hc : (parseRuleLine t).comment ≠ some "") :
    (∀ c ∈ (format_entry (parseRuleLine t)).data, c ≠ '\n') ∧
    parseLine (format_entry (parseRuleLine t)) = parseRuleLine t := by
  have htsL : pySplitWsL t.data = pat.data :: rest.map String.data := by
    calc pySplitWsL t.data
        = ((pySplitWsL t.data).map String.mk).map String.data := (map_data_map_mk _).symm
      _ = (pat :: rest).map String.data := by
          rw [show (pySplitWsL t.data).map String.mk = pySplitWs t from rfl, hts]
      _ = pat.data :: rest.map String.data := rfl
  have htprops : ∀ d ∈ pat.data :: rest.map String.data,
      d ≠ [] ∧ ∀ c ∈ d, wsB c = false := by
    rw [← htsL]
    exact pySplitWsL_props t.data
  have hpatprops := htprops pat.data (List.mem_cons_self _ _)
  have hrestprops : ∀ s ∈ rest, s.data ≠ [] ∧ ∀ c ∈ s.data, wsB c = false := by
    intro s hs
    exact htprops s.data (List.mem_cons_of_mem _ (List.mem_map_of_mem String.data hs))
  have hph : pat.data.head? ≠ some '#' := by
    have hh := pySplitWsL_head t.data pat.data (rest.map String.data) htsL
    rw [hh]
    unfold startsWithHash at hsh
    rw [show (String.mk (lstripL t.data)).data = lstripL t.data from rfl] at hsh
    rw [show lstripL t.data = t.data.dropWhile wsB from rfl] at hsh
    intro h0
    rw [h0] at hsh
    simp at hsh
  have hre := parseRuleLine_eq t pat rest hts
  have hosprops : ∀ s ∈ rest.takeWhile (fun tk => !startsWithHash tk),
      s.data ≠ [] ∧ ∀ c ∈ s.data, wsB c = false :=
    fun s hs => hrestprops s ((List.takeWhile_prefix _).subset hs)
  have hosq : ∀ s ∈ rest.takeWhile (fun tk => !startsWithHash tk),
      startsWithHash s = false := by
    intro s hs
    have h0 := List.mem_takeWhile_imp hs
    simpa using h0
  have hpne : pat ≠ "" := fun h0 => hpatprops.1 ((str_eq_empty_iff pat).1 h0)
  cases hcs : rest.dropWhile (fun tk => !startsWithHash tk) with
  | nil =>
    have he : parseRuleLine t = ⟨EntryType.RULE, some pat,
        (rest.takeWhile (fun tk => !startsWithHash tk)).map CodeOwner.mk, none⟩ := by
      rw [hre, hcs]
      rfl
    have hfe : format_entry (parseRuleLine t) =
        strJoinCh ' ' (pat :: rest.takeWhile (fun tk => !startsWithHash tk)) := by
      rw [he]
      have h0 : format_entry (⟨EntryType.RULE, some pat,
          (rest.takeWhile (fun tk => !startsWithHash tk)).map CodeOwner.mk, none⟩ :
            CodeOwnersEntry) =
          if pat = "" then "" else strJoinCh ' ' ([pat] ++
            ((rest.takeWhile (fun tk => !startsWithHash tk)).map CodeOwner.mk).map
              CodeOwner.toStringForm ++ []) := rfl
      rw [h0, if_neg hpne, map_tsf_map_mk, List.append_nil]
      rfl
    have hne2 : ∀ s ∈ pat :: rest.takeWhile (fun tk => !startsWithHash tk),
        s.data ≠ [] ∧ ∀ c ∈ s.data, wsB c = false := by
      intro s hs
      rcases List.mem_cons.1 hs with h0 | h1
      · rw [h0]; exact hpatprops
      · exact hosprops s h1
    obtain ⟨hrs, hnestr, hhash, hsplit, hnl⟩ :=
      line_facts pat (rest.takeWhile (fun tk => !startsWithHash tk)) hne2 hph
    refine ⟨by rw [hfe]; exact hnl, ?_⟩
    rw [hfe]
    rw [parseLine_eq_rule _ (by rw [hrs]; exact hnestr) (by rw [hrs]; exact hhash)]
    rw [hrs]
    rw [parseRuleLine_eq _ pat (rest.takeWhile (fun tk => !startsWithHash tk)) hsplit]
    rw [he]
    rw [takeWhile_all _ _ (fun s hs => by simp [hosq s hs]),
      dropWhile_all _ _ (fun s hs => by simp [hosq s hs])]
    rfl
  | cons k0 ks =>
    have hk0hash : startsWithHash k0 = true := by
      have h0 := dropWhile_head_false (fun tk => !startsWithHash tk) rest k0 ks hcs
      simpa using h0
    obtain ⟨k0t, hk0d⟩ : ∃ k0t, k0.data = '#' :: k0t := by
      cases hh : k0.data with
      | nil =>
        unfold startsWithHash at hk0hash
        rw [hh] at hk0hash
        simp at hk0hash
      | cons c0 kr =>
        unfold startsWithHash at hk0hash
        rw [hh] at hk0hash
        simp at hk0hash
        exact ⟨kr, by rw [hk0hash]⟩
    have hcsprops : ∀ s ∈ k0 :: ks, s.data ≠ [] ∧ ∀ c ∈ s.data, wsB c = false := by
      intro s hs
      have h0 : s ∈ rest.dropWhile (fun tk => !startsWithHash tk) := by
        rw [hcs]; exact hs
      exact hrestprops s ((List.dropWhile_suffix _).subset h0)
    have he : parseRuleLine t = ⟨EntryType.RULE, some pat,
        (rest.takeWhile (fun tk => !startsWithHash tk)).map CodeOwner.mk,
        some (stripHashSpace (strJoinCh ' ' (k0 :: ks)))⟩ := by
      rw [hre, hcs]
      rfl
    have hcne : stripHashSpace (strJoinCh ' ' (k0 :: ks)) ≠ "" := by
      intro h0
      apply hc
      rw [he, h0]
    rcases comment_data_structure k0 ks k0t hk0d hcsprops with hnil | ⟨us, husne, husprops, husdata⟩
    · exact absurd ((str_eq_empty_iff _).2 hnil) hcne
    have hfe : format_entry (parseRuleLine t) =
        strJoinCh ' ' (pat :: (rest.takeWhile (fun tk => !startsWithHash tk) ++
          ["# " ++ stripHashSpace (strJoinCh ' ' (k0 :: ks))])) := by
      rw [he]
      have h0 : format_entry (⟨EntryType.RULE, some pat,
          (rest.takeWhile (fun tk => !startsWithHash tk)).map CodeOwner.mk,
          some (stripHashSpace (strJoinCh ' ' (k0 :: ks)))⟩ : CodeOwnersEntry) =
          if pat = "" then "" else strJoinCh ' ' ([pat] ++
            ((rest.takeWhile (fun tk => !startsWithHash tk)).map CodeOwner.mk).map
              CodeOwner.toStringForm ++
            (if stripHashSpace (strJoinCh ' ' (k0 :: ks)) ≠ "" then
              ["# " ++ stripHashSpace (strJoinCh ' ' (k0 :: ks))] else [])) := rfl
      rw [h0, if_neg hpne, map_tsf_map_mk, if_pos hcne]
      rfl
    have hd1 : (strJoinCh ' ' (pat :: (rest.takeWhile (fun tk => !startsWithHash tk) ++
        ["# " ++ stripHashSpace (strJoinCh ' ' (k0 :: ks))]))).data =
        interSep ' ' ((pat.data ::
          (rest.takeWhile (fun tk => !startsWithHash tk)).map String.data) ++
          [('#' :: ' ' :: (stripHashSpace (strJoinCh ' ' (k0 :: ks))).data)]) := by
      rw [strJoinCh_data]
      congr 1
      rw [List.map_cons, List.map_append]
      rw [show (["# " ++ stripHashSpace (strJoinCh ' ' (k0 :: ks))]).map String.data =
        [('#' :: ' ' :: (stripHashSpace (strJoinCh ' ' (k0 :: ks))).data)] from by
          rw [List.map_cons, List.map_nil]
          rw [show ("# " ++ stripHashSpace (strJoinCh ' ' (k0 :: ks))).data =
            '#' :: ' ' :: (stripHashSpace (strJoinCh ' ' (k0 :: ks))).data from by
              rw [strData_append]; rfl]]
      rfl
    have hd2 : (strJoinCh ' ' (pat :: (rest.takeWhile (fun tk => !startsWithHash tk) ++
        String.mk ['#'] :: us.map String.mk))).data =
        interSep ' ' ((pat.data ::
          (rest.takeWhile (fun tk => !startsWithHash tk)).map String.data) ++
          (['#'] :: us)) := by
      rw [strJoinCh_data]
      congr 1
      rw [List.map_cons, List.map_append, List.map_cons]
      rw [show (String.mk ['#']).data = ['#'] from rfl, map_data_map_mk]
      rfl
    have hdeq : interSep ' ' ((pat.data ::
          (rest.takeWhile (fun tk => !startsWithHash tk)).map String.data) ++
          [('#' :: ' ' :: (stripHashSpace (strJoinCh ' ' (k0 :: ks))).data)]) =
        interSep ' ' ((pat.data ::
          (rest.takeWhile (fun tk => !startsWithHash tk)).map String.data) ++
          (['#'] :: us)) := by
      rw [interSep_append ' ' _ _ (by simp) (by simp),
        interSep_append ' ' _ _ (by simp) (by simp)]
      rw [show interSep ' '
        [('#' :: ' ' :: (stripHashSpace (strJoinCh ' ' (k0 :: ks))).data)] =
        '#' :: ' ' :: (stripHashSpace (strJoinCh ' ' (k0 :: ks))).data from rfl]
      rw [husdata, hash_chunk us husne]
    have hline2 : strJoinCh ' ' (pat :: (rest.takeWhile (fun tk => !startsWithHash tk) ++
        ["# " ++ stripHashSpace (strJoinCh ' ' (k0 :: ks))])) =
        strJoinCh ' ' (pat :: (rest.takeWhile (fun tk => !startsWithHash tk) ++
          String.mk ['#'] :: us.map String.mk)) :=
      str_ext (hd1.trans (hdeq.trans hd2.symm))
    have hne2 : ∀ s ∈ pat :: (rest.takeWhile (fun tk => !startsWithHash tk) ++
        String.mk ['#'] :: us.map String.mk),
        s.data ≠ [] ∧ ∀ cc ∈ s.data, wsB cc = false := by
      intro s hs
      rcases List.mem_cons.1 hs with h0 | h1
      · rw [h0]; exact hpatprops
      · rcases List.mem_append.1 h1 with h2 | h3
        · exact hosprops s h2
        · rcases List.mem_cons.1 h3 with h4 | h5
          · rw [h4]
            refine ⟨by simp, ?_⟩
            intro cc hcc
            have hcc2 : cc = '#' := by simpa using hcc
            rw [hcc2]; decide
          · obtain ⟨u, hu, hus⟩ := List.mem_map.1 h5
            rw [← hus]
            exact husprops u hu
    obtain ⟨hrs, hnestr, hhash, hsplit, hnl⟩ :=
      line_facts pat (rest.takeWhile (fun tk => !startsWithHash tk) ++
        String.mk ['#'] :: us.map String.mk) hne2 hph
    refine ⟨by rw [hfe, hline2]; exact hnl, ?_⟩
    rw [hfe, hline2]
    rw [parseLine_eq_rule _ (by rw [hrs]; exact hnestr) (by rw [hrs]; exact hhash)]
    rw [hrs]
    rw [parseRuleLine_eq _ pat (rest.takeWhile (fun tk => !startsWithHash tk) ++
      String.mk ['#'] :: us.map String.mk) hsplit]
    rw [he]
    have hqhash : (fun tk => !startsWithHash tk) (String.mk ['#']) = false := by
      simp [startsWithHash]
    obtain ⟨htw, hdw⟩ := takeWhile_middle (fun tk => !startsWithHash tk)
      (rest.takeWhile (fun tk => !startsWithHash tk)) (String.mk ['#'])
      (us.map String.mk) (fun s hs => by simp [hosq s hs]) hqhash
    rw [htw, hdw]
    simp only [CodeOwnersEntry.mk.injEq]
    refine ⟨trivial, trivial, trivial, ?_⟩
    rw [if_neg (by simp)]
    congr 1
    apply str_ext
    rw [stripHashSpace_data, strJoinCh_data]
    rw [show (String.mk ['#'] :: us.map String.mk).map String.data = ['#'] :: us from by
      rw [List.map_cons, map_data_map_mk]]
    rw [← hash_chunk us husne]
    rw [dropHash_hash, stripOneSpace_space]
    exact husdata.symm

theorem parseLine_retract (L : String) (hnl : ∀ c ∈ L.data, c ≠ '\n')
    (hcm : isRule (parseLine L) = true → (parseLine L).comment ≠ some "") :
    (∀ c ∈ (format_entry (parseLine L)).data, c ≠ '\n') ∧
    parseLine (format_entry (parseLine L)) = parseLine L := by
  by_cases hbl : pyRstrip L = ""
  · rw [parseLine_eq_blank L hbl]
    rw [show format_entry CodeOwnersEntry.blankE = "" from rfl]
    constructor
    · intro c hc0
      rw [show ("" : String).data = [] from rfl] at hc0
      simp at hc0
    · decide
  · by_cases hshc : startsWithHash (String.mk (lstripL (pyRstrip L).data)) = true
    · rw [parseLine_eq_comment L hbl hshc]
      apply roundtrip_comment (pyRstrip L)
      · intro c h0
        rw [pyRstrip_data] at h0
        exact rstripL_getLast? L.data c h0
      · intro c h0
        rw [pyRstrip_data] at h0
        exact hnl c (mem_rstripL L.data c h0)
    · have hsh' : startsWithHash (String.mk (lstripL (pyRstrip L).data)) = false := by
        simpa using hshc
      rw [parseLine_eq_rule L hbl hsh']
      cases hts : pySplitWs (pyRstrip L) with
      | nil =>
        have hrb : parseRuleLine (pyRstrip L) = CodeOwnersEntry.blankE := by
          unfold parseRuleLine
          rw [hts]
        rw [hrb]
        rw [show format_entry CodeOwnersEntry.blankE = "" from rfl]
        constructor
        · intro c hc0
          rw [show ("" : String).data = [] from rfl] at hc0
          simp at hc0
        · decide
      | cons pat rest =>
        have hpl : parseLine L = parseRuleLine (pyRstrip L) := parseLine_eq_rule L hbl hsh'
        have hir : isRule (parseLine L) = true := by
          rw [hpl, parseRuleLine_eq _ pat rest hts]
          rfl
        exact roundtrip_rule (pyRstrip L) pat rest hsh' hts
          (fun h0 => hcm hir (by rw [hpl]; exact h0))

theorem parse_render_retract (D : String)
    (hcm : ∀ e ∈ (parse_codeowners D).entries,
      e.type = EntryType.RULE → e.comment ≠ some "") :
    parse_codeowners (renderContent (parse_codeowners D)) = parse_codeowners D := by
  have hlines : ∀ L ∈ strSplitCh '\n' D, ∀ c ∈ L.data, c ≠ '\n' := by
    intro L hL c hc
    unfold strSplitCh at hL
    obtain ⟨piece, hp, hpe⟩ := List.mem_map.1 hL
    have hce : c ∈ piece := by rw [← hpe] at hc; exact hc
    have hfree := splitP_sep_free (fun c => c == '\n') D.data piece hp c hce
    simpa using hfree
  have hcm' : ∀ L ∈ strSplitCh '\n' D, isRule (parseLine L) = true →
      (parseLine L).comment ≠ some "" := by
    intro L hL hir
    apply hcm (parseLine L) ?_ ((isRule_iff _).1 hir)
    show parseLine L ∈ (parse_codeowners D).entries
    exact List.mem_map_of_mem parseLine hL
  have hrc : renderContent (parse_codeowners D) =
      strJoinCh '\n' ((strSplitCh '\n' D).map (fun L => format_entry (parseLine L))) := by
    unfold renderContent parse_codeowners
    rw [List.map_map]
    rfl
  have hps : ∀ tk ∈ ((strSplitCh '\n' D).map
      (fun L => format_entry (parseLine L))).map String.data,
      ∀ c ∈ tk, (c == '\n') = false := by
    intro tk htk c hc
    obtain ⟨s, hs, hsd⟩ := List.mem_map.1 htk
    obtain ⟨L, hL, hLs⟩ := List.mem_map.1 hs
    have hnoLn := (parseLine_retract L (hlines L hL) (hcm' L hL)).1
    rw [← hLs] at hsd
    rw [← hsd] at hc
    have h1 := hnoLn c hc
    simpa using h1
  have hnon : ((strSplitCh '\n' D).map
      (fun L => format_entry (parseLine L))).map String.data ≠ [] := by
    intro h0
    have h1 := splitP_ne_nil (fun c => c == '\n') D.data
    unfold strSplitCh at h0
    simp only [List.map_eq_nil_iff] at h0
    exact h1 h0
  have hsj : strSplitCh '\n' (strJoinCh '\n'
      ((strSplitCh '\n' D).map (fun L => format_entry (parseLine L)))) =
      (strSplitCh '\n' D).map (fun L => format_entry (parseLine L)) := by
    show (splitP (fun c => c == '\n') ((strJoinCh '\n'
      ((strSplitCh '\n' D).map (fun L => format_entry (parseLine L)))).data)).map String.mk =
      (strSplitCh '\n' D).map (fun L => format_entry (parseLine L))
    rw [strJoinCh_data]
    rw [splitP_interSep (fun c => c == '\n') '\n' (by simp) _ hnon hps]
    exact map_mk_map_data _
  calc parse_codeowners (renderContent (parse_codeowners D))
      = CodeOwnersFile.mk ((strSplitCh '\n'
          (renderContent (parse_codeowners D))).map parseLine) := rfl
    _ = CodeOwnersFile.mk (((strSplitCh '\n' D).map
          (fun L => format_entry (parseLine L))).map parseLine) := by
        rw [hrc, hsj]
    _ = CodeOwnersFile.mk ((strSplitCh '\n' D).map parseLine) := by
        congr 1
        rw [List.map_map]
        apply List.map_congr_left
        intro L hL
        exact (parseLine_retract L (hlines L hL) (hcm' L hL)).2
    _ = parse_codeowners D := rfl

/-- C3 counterexample: the round trip is not an identity on rule projections
for every document: for D = "*.py #" (a rule with an empty inline-comment
body) the first parse yields inline comment `some ""`, the write drops the
falsy comment producing "*.py", and the reparse yields inline comment `none`,
so the inline comments of parse(write(parse(D))) and parse(D) differ. -/
theorem parse_write_parse_roundtrip_counterexample :
    write_codeowners (parse_codeowners "*.py #") true = Except.ok "*.py" ∧
    ruleView (parse_codeowners "*.py") ≠ ruleView (parse_codeowners "*.py #") :=
  ⟨rfl, by decide⟩

/-- C3 (amended): for every document D in which no parsed rule carries an
empty-string inline comment, parsing, writing with `write_codeowners`, and
parsing again preserves the sequence of rule patterns, per-rule owner counts,
and inline comments (in fact the reparse reproduces the parsed document
exactly; only the empty-comment-marker case forces the exception). -/
theorem parse_write_parse_roundtrip (D W : String) (v : Bool)
    (hW : write_codeowners (parse_codeowners D) v = Except.ok W)
    (hcm : ∀ e ∈ (parse_codeowners D).entries,
      e.type = EntryType.RULE → e.comment ≠ some "") :
    ruleView (parse_codeowners W) = ruleView (parse_codeowners D) := by
  have h1 : W = renderContent (parse_codeowners D) :=
    write_codeowners_ok_eq _ v W hW
  rw [h1, parse_render_retract D hcm]

/-- C3 witness: a concrete document with collapsing whitespace, a blank line
and a full-line comment round-trips with identical rule view. -/
theorem parse_write_parse_roundtrip_witness :
    write_codeowners (parse_codeowners "*.py   @a\n# x") false =
      Except.ok "*.py @a\n# x" ∧
    ruleView (parse_codeowners "*.py @a\n# x") =
      ruleView (parse_codeowners "*.py   @a\n# x") :=
  ⟨rfl, parse_write_parse_roundtrip "*.py   @a\n# x" "*.py @a\n# x" false rfl (by decide)⟩
